import Mathlib

/-!
# Verification of the `Search.h` state-space search engine

A shallow embedding of `src/util/Search.h`: the generic `Search` driver
(`perform`, `frontier_push`, `frontier_pop`, `frontier_empty`, `clear`) and
the five strategy subclasses `BFS`, `DFS`, `IDDFS`, `UCS`, `AStar`.

Modelling conventions, chosen to mirror the C++ faithfully:

* The node arena `m_nodes : std::vector<std::unique_ptr<Node>>` becomes a
  `List (SNode σ π)`; a C++ `Node*` pointing into the arena becomes the
  node's index in that list.  A freshly allocated candidate node (made by
  `make_node` before admission) has the would-be index `nodes.length`; it
  is appended to the arena exactly when `frontier_push` returns `true`,
  matching `perform`'s `if (frontier_push(next_node.get()))
  m_nodes.push_back(std::move(next_node))`.
* `m_visited : std::unordered_set<Node*, Search::Hash>` hashes through the
  node's *contents* but, crucially, compares elements with the defaulted
  `std::equal_to<Node*>`, i.e. **pointer equality**.  It is therefore a set
  of pointers, embedded here as a `List Nat` of arena indices; membership
  tests compare indices (pointer identity), never states.
* The frontier (`std::deque<Node*>` or `std::priority_queue<Node*,...>`)
  becomes a `List Nat` of arena indices.  Deque: push back, pop front (BFS)
  or back (DFS/IDDFS).  Priority queue: push back, pop a minimal-key
  element (`std::greater` comparator on the node ordering, so `top()` is a
  cost-minimal / total-minimal node); the C++ heap's tie-breaking order is
  unspecified, fixed here as the earliest-pushed minimal element.
* Virtual dispatch on `frontier_empty` / `frontier_push` / `frontier_pop` /
  `make_node` becomes a record of functions (`Strat`).
* The unbounded `while (!frontier_empty())` loop becomes a fueled
  iteration of a single-iteration `step` function; `loop fuel c = none`
  means the loop is still running after `fuel` iterations.
* `Core.log` is a ghost field recording the states expanded (marked
  visited, successors generated) in order; the C++ has no such field and
  nothing in the embedding reads it back into the computation.
-/

namespace SearchEngine

/-- A search node: a state, an arena index of the parent (or `none` for a
root, C++ `parent == nullptr`), and the strategy payload (`()` for
`SearchNode`, depth `k` for `IDDFSNode`, `cost` for `UCSNode`,
`(cost, total)` for `AStarNode`). -/
structure SNode (σ : Type) (π : Type) where
  state : σ
  parent : Option Nat
  payload : π
deriving DecidableEq, Repr

instance {σ π : Type} [Inhabited σ] [Inhabited π] : Inhabited (SNode σ π) :=
  ⟨⟨default, none, default⟩⟩

/-- The mutable members of a `Search` object during `perform()`:
`m_nodes` (arena), `m_frontier` (arena indices), `m_visited` (a set of
`Node*`, i.e. arena indices, compared by pointer), strategy extra state
(IDDFS's `m_maximum_search_depth` / `m_increase_search_depth`; `Unit`
otherwise), and a ghost log of expanded states. -/
structure Core (σ : Type) (π : Type) (ε : Type) where
  nodes : List (SNode σ π)
  frontier : List Nat
  visited : List Nat
  extra : ε
  log : List σ
deriving DecidableEq, Repr

variable {σ π ε : Type}

/-- Dereference an arena index (a `Node*`). -/
def getNode [Inhabited σ] [Inhabited π] (c : Core σ π ε) (i : Nat) : SNode σ π :=
  c.nodes.getD i default

/-- A search strategy: the payload derivation used by `make_node`, the
initial extra state, and the three virtual frontier operations. -/
structure Strat (σ : Type) (π : Type) (ε : Type) where
  payload : σ → Option (SNode σ π) → π
  eps0 : ε
  fempty : Core σ π ε → Bool × Core σ π ε
  fpush : Nat → SNode σ π → Core σ π ε → Bool × Core σ π ε
  fpop : Core σ π ε → Nat × Core σ π ε

/-- `Search::clear()`: empty the arena, the visited set and the frontier.
The strategy extra state (IDDFS's depth members) is *not* cleared, matching
the C++ (`clear` touches only `m_nodes`, `m_visited`, `m_frontier`). -/
def clearCore (c : Core σ π ε) : Core σ π ε :=
  { c with nodes := [], frontier := [], visited := [] }

/-- `Search::frontier_empty()` for the non-restarting strategies: just
`m_frontier.empty()`. -/
def plainEmpty (c : Core σ π ε) : Bool × Core σ π ε :=
  (c.frontier.isEmpty, c)

/-- `Search::frontier_push(Node *node)`: reject when the pointer is in
`m_visited` (pointer equality — a fresh candidate is never found), else
push onto the frontier and return `true`. -/
def basePush (i : Nat) (_n : SNode σ π) (c : Core σ π ε) : Bool × Core σ π ε :=
  if i ∈ c.visited then (false, c)
  else (true, { c with frontier := c.frontier ++ [i] })

/-- `Search::frontier_pop()` for the deque in BFS: pop the front.  The
`[]` case is unreachable (`perform` checks `frontier_empty` first). -/
def popFront (c : Core σ π ε) : Nat × Core σ π ε :=
  match c.frontier with
  | [] => (0, c)
  | i :: r => (i, { c with frontier := r })

/-- `DFS::frontier_pop()` / `IDDFS::frontier_pop()`: pop the back. -/
def popBack (c : Core σ π ε) : Nat × Core σ π ε :=
  match c.frontier with
  | [] => (0, c)
  | _ :: _ => (c.frontier.getLast?.getD 0, { c with frontier := c.frontier.dropLast })

/-- `std::priority_queue` pop with the `std::greater`-based comparator:
remove and return an element with minimal key (earliest pushed among
ties, fixing the heap's unspecified tie order). -/
def popMinBy [Inhabited σ] [Inhabited π] (key : Nat → Int) (c : Core σ π ε) :
    Nat × Core σ π ε :=
  match c.frontier with
  | [] => (0, c)
  | i :: r =>
    let best := r.foldl (fun b j => if key j < key b then j else b) i
    (best, { c with frontier := c.frontier.erase best })

/-- One iteration of `perform`'s `while` loop either terminates the call
(`done`: `std::nullopt` or the reconstructed trace, together with the final
member state) or continues with an updated member state. -/
inductive StepRes (σ π ε : Type) where
  | done : Option (List (SNode σ π)) → Core σ π ε → StepRes σ π ε
  | cont : Core σ π ε → StepRes σ π ε
deriving DecidableEq

/-- `make_node(state, parent)` for a child: the parent is an arena index
together with the node it points to. -/
def mkChild (S : Strat σ π ε) (s : σ) (pidx : Nat) (pn : SNode σ π) : SNode σ π :=
  ⟨s, some pidx, S.payload s (some pn)⟩

/-- `make_node(state)` for a root (`parent = nullptr`). -/
def mkRoot (S : Strat σ π ε) (s : σ) : SNode σ π :=
  ⟨s, none, S.payload s none⟩

/-- One turn of `perform`'s successor loop: build the candidate child
node (`make_node(next_state, node)`), call `frontier_push` on its
would-be pointer, and keep the node in the arena exactly when the push
succeeded. -/
def pushCand (S : Strat σ π ε) (pidx : Nat) (pn : SNode σ π) (c : Core σ π ε)
    (s : σ) : Core σ π ε :=
  let cand := mkChild S s pidx pn
  let r := S.fpush c.nodes.length cand c
  if r.1 then { r.2 with nodes := r.2.nodes ++ [cand] } else r.2

/-- The successor loop of `perform`: for each successor state build a
candidate node; if `frontier_push` admits it, append it to the arena. -/
def expand (S : Strat σ π ε) (succs : σ → List σ) (pidx : Nat) (pn : SNode σ π)
    (c : Core σ π ε) : Core σ π ε :=
  (succs pn.state).foldl (pushCand S pidx pn) c

/-- The back-trace `for (; node; node = node->parent)`: collect the node at
`i` and its ancestors, goal first.  Fueled; `nodes.length` fuel suffices
since parents were allocated before their children. -/
def traceBack [Inhabited σ] [Inhabited π] (nodes : List (SNode σ π)) :
    Nat → Nat → List (SNode σ π)
  | 0, _ => []
  | fuel + 1, i =>
    let n := nodes.getD i default
    match n.parent with
    | none => [n]
    | some p => n :: traceBack nodes fuel p

/-- One iteration of `perform`'s loop: test `frontier_empty` (IDDFS may
restart here), pop, goal-test (success reconstructs the trace, reverses it
and calls `clear`), otherwise mark the popped pointer visited and expand. -/
def step [Inhabited σ] [Inhabited π] (S : Strat σ π ε) (succs : σ → List σ)
    (goal : σ → Bool) (c : Core σ π ε) : StepRes σ π ε :=
  let e := S.fempty c
  if e.1 then .done none e.2
  else
    let p := S.fpop e.2
    let n := getNode p.2 p.1
    if goal n.state then
      .done (some (traceBack p.2.nodes p.2.nodes.length p.1).reverse) (clearCore p.2)
    else
      let c2 : Core σ π ε :=
        { p.2 with visited := p.1 :: p.2.visited, log := p.2.log ++ [n.state] }
      .cont (expand S succs p.1 n c2)

/-- `perform`'s loop, fueled: `none` means the loop is still running after
`fuel` iterations; `some (r, c)` means the call returned `r` with final
member state `c`. -/
def loop [Inhabited σ] [Inhabited π] (S : Strat σ π ε) (succs : σ → List σ)
    (goal : σ → Bool) : Nat → Core σ π ε → Option (Option (List (SNode σ π)) × Core σ π ε)
  | 0, _ => none
  | fuel + 1, c =>
    match step S succs goal c with
    | .done r c' => some (r, c')
    | .cont c' => loop S succs goal fuel c'

/-- Iterate the loop body without terminating early, for observing
intermediate member states. -/
def stepN [Inhabited σ] [Inhabited π] (S : Strat σ π ε) (succs : σ → List σ)
    (goal : σ → Bool) : Nat → Core σ π ε → StepRes σ π ε
  | 0, c => .cont c
  | fuel + 1, c =>
    match step S succs goal c with
    | .done r c' => .done r c'
    | .cont c' => stepN S succs goal fuel c'

/-- The member state at the start of `perform()`: root node allocated and
pushed (`m_nodes.push_back(make_node(m_initial)); m_frontier.push...`). -/
def initCore (S : Strat σ π ε) (initial : σ) : Core σ π ε :=
  ⟨[mkRoot S initial], [0], [], S.eps0, []⟩

/-- `perform()` itself, fueled. -/
def run [Inhabited σ] [Inhabited π] (S : Strat σ π ε) (succs : σ → List σ)
    (goal : σ → Bool) (initial : σ) (fuel : Nat) :
    Option (Option (List (SNode σ π)) × Core σ π ε) :=
  loop S succs goal fuel (initCore S initial)

/-! ## The five strategies -/

/-- `BFS<State>`: plain `SearchNode` (no payload), FIFO deque. -/
def bfsStrat (σ : Type) : Strat σ Unit Unit :=
  ⟨fun _ _ => (), (), plainEmpty, basePush, popFront⟩

/-- `DFS<State>`: plain `SearchNode`, LIFO deque. -/
def dfsStrat (σ : Type) : Strat σ Unit Unit :=
  ⟨fun _ _ => (), (), plainEmpty, basePush, popBack⟩

/-- `IDDFSNode::k`: parent depth + 1, or 0 for a root. -/
def iddfsPayload (_s : σ) : Option (SNode σ Nat) → Nat
  | none => 0
  | some pn => pn.payload + 1

/-- IDDFS extra members: `m_maximum_search_depth` and
`m_increase_search_depth`. -/
structure IDState where
  maxDepth : Nat
  increase : Bool
deriving DecidableEq, Repr

/-- `IDDFS::frontier_empty()`: non-empty frontier ⇒ not empty; empty
frontier with the deepen flag raised ⇒ reset the flag, `clear()`, reseed
the root, increment the cutoff, and report non-empty (restart); otherwise
report empty. -/
def iddfsEmpty [Inhabited σ] (initial : σ) (c : Core σ Nat IDState) :
    Bool × Core σ Nat IDState :=
  if !c.frontier.isEmpty then (false, c)
  else if c.extra.increase then
    (false,
      { nodes := [⟨initial, none, 0⟩]
        frontier := [0]
        visited := []
        extra := ⟨c.extra.maxDepth + 1, false⟩
        log := c.log })
  else (true, c)

/-- `IDDFS::frontier_push`: pointer-visited check (never rejects a fresh
candidate), then the depth cutoff (reject and raise the deepen flag), then
the base push. -/
def iddfsPush (i : Nat) (n : SNode σ Nat) (c : Core σ Nat IDState) :
    Bool × Core σ Nat IDState :=
  if i ∈ c.visited then (false, c)
  else if n.payload > c.extra.maxDepth then
    (false, { c with extra := ⟨c.extra.maxDepth, true⟩ })
  else basePush i n c

/-- `IDDFS<State>`: depth payload, LIFO deque, cutoff initially 3. -/
def iddfsStrat [Inhabited σ] (initial : σ) : Strat σ Nat IDState :=
  ⟨fun s p => iddfsPayload s p, ⟨3, false⟩, iddfsEmpty initial, iddfsPush, popBack⟩

/-- `UCSNode::cost`: `parent ? parent->cost + state.cost : 0`. -/
def ucsPayload (cost : σ → Int) (s : σ) : Option (SNode σ Int) → Int
  | none => 0
  | some pn => pn.payload + cost s

/-- `UCS<State>`: cost payload, min-cost priority queue, base push. -/
def ucsStrat [Inhabited σ] (cost : σ → Int) : Strat σ Int Unit :=
  ⟨fun s p => ucsPayload cost s p, (), plainEmpty, basePush,
    fun c => popMinBy (fun i => (getNode c i).payload) c⟩

/-- `AStarNode`: `cost = parent ? parent->cost + state.cost : 0`,
`total = cost + heuristic(state)`. -/
def astarPayload (cost : σ → Int) (h : σ → Int) (s : σ) :
    Option (SNode σ (Int × Int)) → Int × Int
  | none => (0, 0 + h s)
  | some pn => (pn.payload.1 + cost s, pn.payload.1 + cost s + h s)

/-- `AStar::frontier_push`: look the candidate pointer up in `m_visited`.
The set compares `Node*` by pointer, so a hit would be the candidate's own
pointer and `(*previous)->total` would be the candidate's own total —
hence the reflexive comparison in the (dead) found branch. -/
def astarPush (i : Nat) (n : SNode σ (Int × Int)) (c : Core σ (Int × Int) Unit) :
    Bool × Core σ (Int × Int) Unit :=
  match c.visited.find? (fun v => v == i) with
  | none => basePush i n c
  | some _ => if n.payload.2 ≤ n.payload.2 then (false, c) else basePush i n c

/-- `AStar<State>`: (cost, total) payload, min-total priority queue,
re-opening push. -/
def astarStrat [Inhabited σ] (cost : σ → Int) (h : σ → Int) :
    Strat σ (Int × Int) Unit :=
  ⟨fun s p => astarPayload cost h s p, (), plainEmpty, astarPush,
    fun c => popMinBy (fun i => (getNode c i).payload.2) c⟩

/-- Extract the ghost expansion log from a loop-iteration result. -/
def logOf : StepRes σ π ε → List σ
  | .done _ c => c.log
  | .cont c => c.log

/-! ## The two-state cycle fixture

States `false ⇄ true`, every successor call returns the single opposite
state, and the goal predicate is constantly `false`.  This is the smallest
finite graph with an unreachable goal and a cycle. -/

/-- Successors on the two-state cycle. -/
def cycSuccs : Bool → List Bool := fun b => [!b]

/-- The always-false goal predicate. -/
def neverGoal : Bool → Bool := fun _ => false

/-- Invariant maintained by the cycle runs: the frontier holds exactly one
valid arena index and every visited pointer is a valid arena index. -/
def CycInv (c : Core Bool Unit Unit) : Prop :=
  ∃ i, c.frontier = [i] ∧ i < c.nodes.length ∧ ∀ v ∈ c.visited, v < c.nodes.length

/-! ## Projecting an A* run onto a UCS run (for the zero heuristic) -/

/-- Forget an A* node's total, keeping the cumulative cost: the `UCSNode`
carrying the same content. -/
def projNode (n : SNode σ (Int × Int)) : SNode σ Int :=
  ⟨n.state, n.parent, n.payload.1⟩

/-- Forget all A* totals in a member state. -/
def projCore (c : Core σ (Int × Int) Unit) : Core σ Int Unit :=
  ⟨c.nodes.map projNode, c.frontier, c.visited, (), c.log⟩

/-- Forget all A* totals in a loop-iteration result. -/
def projRes : StepRes σ (Int × Int) Unit → StepRes σ Int Unit
  | .done r c => .done (r.map (List.map projNode)) (projCore c)
  | .cont c => .cont (projCore c)

/-- Every stored total equals the stored cost — the invariant of an A*
run whose heuristic is constantly zero. -/
def TotEq (c : Core σ (Int × Int) Unit) : Prop :=
  ∀ n ∈ c.nodes, n.payload.2 = n.payload.1

/-! ## Parent-chain well-formedness (for path reconstruction) -/

/-- Well-formedness of one arena entry `n` sitting at index `i`: a root
carries the initial state; a child points strictly backwards in the arena
and carries a state produced by the successors function from its parent's
state. -/
def nodeOK [Inhabited σ] [Inhabited π] (succs : σ → List σ) (initial : σ)
    (nodes : List (SNode σ π)) (n : SNode σ π) (i : Nat) : Prop :=
  match n.parent with
  | none => n.state = initial
  | some p => p < i ∧ n.state ∈ succs (nodes.getD p default).state

/-- Every arena entry is well-formed. -/
def nodesOK [Inhabited σ] [Inhabited π] (succs : σ → List σ) (initial : σ)
    (nodes : List (SNode σ π)) : Prop :=
  ∀ i, i < nodes.length → nodeOK succs initial nodes (nodes.getD i default) i

/-- The driver invariant: the arena is well-formed and the frontier and
visited sets hold only valid arena indices (live pointers). -/
def Inv [Inhabited σ] [Inhabited π] (succs : σ → List σ) (initial : σ)
    (c : Core σ π ε) : Prop :=
  nodesOK succs initial c.nodes ∧
  (∀ j ∈ c.frontier, j < c.nodes.length) ∧
  (∀ v ∈ c.visited, v < c.nodes.length)

/-- The well-behavedness conditions the five strategies share:
`frontier_empty` may only keep the member state or restart it to a valid
root state, and reports `false` only when the frontier is non-empty;
`frontier_pop` returns a frontier element and only removes frontier
elements; `frontier_push` touches nothing but the frontier, onto which it
may add only the candidate's pointer, and only when admitting. -/
structure StratOK [Inhabited σ] [Inhabited π] (S : Strat σ π ε)
    (succs : σ → List σ) (initial : σ) : Prop where
  empty_inv : ∀ c, Inv succs initial c → Inv succs initial (S.fempty c).2
  empty_ne : ∀ c, Inv succs initial c → (S.fempty c).1 = false →
    (S.fempty c).2.frontier ≠ []
  pop_mem : ∀ c, c.frontier ≠ [] → (S.fpop c).1 ∈ c.frontier
  pop_nodes : ∀ c, (S.fpop c).2.nodes = c.nodes
  pop_visited : ∀ c, (S.fpop c).2.visited = c.visited
  pop_front_sub : ∀ c, ∀ j ∈ (S.fpop c).2.frontier, j ∈ c.frontier
  push_nodes : ∀ i n c, (S.fpush i n c).2.nodes = c.nodes
  push_visited : ∀ i n c, (S.fpush i n c).2.visited = c.visited
  push_front_sub : ∀ i n c, ∀ j ∈ (S.fpush i n c).2.frontier,
    j ∈ c.frontier ∨ ((S.fpush i n c).1 = true ∧ j = i)

/-- On the cycle, one loop iteration of a deque strategy with the base
push always continues, preserving `CycInv`: the popped node is never the
goal, and its single successor is always admitted because the visited
check compares pointers and the candidate is a fresh allocation. -/
lemma cyc_step (S : Strat Bool Unit Unit)
    (hemp : S.fempty = plainEmpty) (hpush : S.fpush = basePush)
    (hpop : ∀ (c : Core Bool Unit Unit) i, c.frontier = [i] →
      S.fpop c = (i, { c with frontier := [] })) :
    ∀ c, CycInv c → ∃ c', step S cycSuccs neverGoal c = .cont c' ∧ CycInv c' := by
  rintro c ⟨i, hf, hi, hv⟩
  have hne : c.frontier.isEmpty = false := by rw [hf]; rfl
  have hpop' := hpop c i hf
  have hnotmem : ¬ c.nodes.length ∈ i :: c.visited := by
    intro hmem
    rcases List.mem_cons.mp hmem with h0 | h0
    · rw [h0] at hi; exact absurd hi (lt_irrefl _)
    · exact absurd (hv _ h0) (lt_irrefl _)
  have hstep : step S cycSuccs neverGoal c = .cont (expand S cycSuccs i
      (getNode { c with frontier := ([] : List Nat) } i)
      { c with
          frontier := []
          visited := i :: c.visited
          log := c.log ++ [(getNode { c with frontier := ([] : List Nat) } i).state] }) := by
    simp only [step, hemp, plainEmpty, hne, Bool.false_eq_true, if_false, hpop', neverGoal]
  refine ⟨_, hstep, ?_⟩
  have hexp : expand S cycSuccs i
      (getNode { c with frontier := ([] : List Nat) } i)
      { c with
          frontier := []
          visited := i :: c.visited
          log := c.log ++ [(getNode { c with frontier := ([] : List Nat) } i).state] } =
      { c with
          nodes := c.nodes ++
            [mkChild S (!(getNode { c with frontier := ([] : List Nat) } i).state) i
              (getNode { c with frontier := ([] : List Nat) } i)]
          frontier := [c.nodes.length]
          visited := i :: c.visited
          log := c.log ++ [(getNode { c with frontier := ([] : List Nat) } i).state] } := by
    simp only [expand, pushCand, cycSuccs, List.foldl_cons, List.foldl_nil, hpush, basePush,
      if_neg hnotmem, List.nil_append, if_true]
  rw [hexp]
  refine ⟨c.nodes.length, rfl, by simp, ?_⟩
  intro v hv2
  simp only [List.length_append, List.length_cons, List.length_nil]
  rcases List.mem_cons.mp hv2 with h0 | h0
  · omega
  · have := hv _ h0
    omega

/-- Fuel-indexed divergence: from any `CycInv` state the loop never
returns, for any deque strategy with the base push. -/
lemma cyc_loop_none (S : Strat Bool Unit Unit)
    (hemp : S.fempty = plainEmpty) (hpush : S.fpush = basePush)
    (hpop : ∀ (c : Core Bool Unit Unit) i, c.frontier = [i] →
      S.fpop c = (i, { c with frontier := [] })) :
    ∀ fuel c, CycInv c → loop S cycSuccs neverGoal fuel c = none := by
  intro fuel
  induction fuel with
  | zero => intro c _; rfl
  | succ f ih =>
    intro c hc
    obtain ⟨c', hstep, hc'⟩ := cyc_step S hemp hpush hpop c hc
    simp only [loop, hstep]
    exact ih c' hc'

/-- `popFront` on a singleton frontier. -/
lemma popFront_singleton (c : Core σ π ε) (i : Nat) (h : c.frontier = [i]) :
    popFront c = (i, { c with frontier := [] }) := by
  simp only [popFront, h]

/-- `popBack` on a singleton frontier. -/
lemma popBack_singleton (c : Core σ π ε) (i : Nat) (h : c.frontier = [i]) :
    popBack c = (i, { c with frontier := [] }) := by
  simp only [popBack, h]
  rfl

/-- The initial member state of the cycle runs satisfies the invariant. -/
lemma cyc_init (S : Strat Bool Unit Unit) : CycInv (initCore S false) :=
  ⟨0, rfl, by simp [initCore], by intro v hv; simp [initCore] at hv⟩

/-- A loop iteration that returns a trace ends in `clear()`: the arena,
the visited set and the frontier of the returned member state are empty. -/
lemma step_done_some [Inhabited σ] [Inhabited π] (S : Strat σ π ε)
    (succs : σ → List σ) (goal : σ → Bool) (c : Core σ π ε)
    (tr : List (SNode σ π)) (c' : Core σ π ε)
    (h : step S succs goal c = .done (some tr) c') :
    c'.nodes = [] ∧ c'.visited = [] ∧ c'.frontier = [] := by
  simp only [step] at h
  split at h
  · simp at h
  · split at h
    · rw [StepRes.done.injEq] at h
      rw [← h.2]
      exact ⟨rfl, rfl, rfl⟩
    · simp at h

/-- `perform()` clears the arena, tracker and frontier on the success
path, for every strategy. -/
lemma loop_success_clear [Inhabited σ] [Inhabited π] (S : Strat σ π ε)
    (succs : σ → List σ) (goal : σ → Bool) :
    ∀ (fuel : Nat) (c : Core σ π ε) (tr : List (SNode σ π)) (c' : Core σ π ε),
      loop S succs goal fuel c = some (some tr, c') →
      c'.nodes = [] ∧ c'.visited = [] ∧ c'.frontier = [] := by
  intro fuel
  induction fuel with
  | zero => intro c tr c' h; simp [loop] at h
  | succ f ih =>
    intro c tr c' h
    rw [loop] at h
    cases hs : step S succs goal c with
    | done r c1 =>
      rw [hs] at h
      simp only [Option.some.injEq, Prod.mk.injEq] at h
      obtain ⟨h1, h2⟩ := h
      exact step_done_some S succs goal c tr c' (by rw [hs, h1, h2])
    | cont c1 =>
      rw [hs] at h
      exact ih c1 tr c' h

lemma getD_append_self {α : Type} [Inhabited α] (l : List α) (x : α) :
    (l ++ [x]).getD l.length default = x := by
  rw [List.getD_append_right l [x] default l.length (le_refl _)]
  simp

lemma nodeOK_append [Inhabited σ] [Inhabited π] (succs : σ → List σ) (initial : σ)
    (nodes : List (SNode σ π)) (x n : SNode σ π) (i : Nat) (hi : i ≤ nodes.length)
    (h : nodeOK succs initial nodes n i) : nodeOK succs initial (nodes ++ [x]) n i := by
  cases hp : n.parent with
  | none => simp only [nodeOK, hp] at h ⊢; exact h
  | some p =>
    simp only [nodeOK, hp] at h ⊢
    refine ⟨h.1, ?_⟩
    rw [List.getD_append nodes [x] default p (lt_of_lt_of_le h.1 hi)]
    exact h.2

lemma nodesOK_append [Inhabited σ] [Inhabited π] (succs : σ → List σ) (initial : σ)
    (nodes : List (SNode σ π)) (x : SNode σ π)
    (h : nodesOK succs initial nodes)
    (hx : nodeOK succs initial nodes x nodes.length) :
    nodesOK succs initial (nodes ++ [x]) := by
  intro i hi
  have hlen : (nodes ++ [x]).length = nodes.length + 1 := by simp
  rw [hlen] at hi
  rcases Nat.lt_succ_iff_lt_or_eq.mp hi with h1 | h1
  · rw [List.getD_append nodes [x] default i h1]
    exact nodeOK_append succs initial nodes x _ i (le_of_lt h1) (h i h1)
  · subst h1
    rw [getD_append_self]
    exact nodeOK_append succs initial nodes x x _ (le_refl _) hx

lemma traceBack_spec [Inhabited σ] [Inhabited π] (succs : σ → List σ) (initial : σ)
    (nodes : List (SNode σ π)) (hok : nodesOK succs initial nodes) :
    ∀ i, i < nodes.length → ∀ fuel, i < fuel →
      (traceBack nodes fuel i).head? = some (nodes.getD i default) ∧
      ((traceBack nodes fuel i).getLast?.map (fun n => n.state)) = some initial ∧
      List.Chain' (fun a b => a.state ∈ succs b.state) (traceBack nodes fuel i) := by
  intro i
  induction i using Nat.strong_induction_on with
  | _ i ih =>
    intro hi fuel hfuel
    match fuel, hfuel with
    | fuel + 1, hfuel =>
      have hnode := hok i hi
      cases hp : (nodes.getD i default).parent with
      | none =>
        have ht : traceBack nodes (fuel + 1) i = [nodes.getD i default] := by
          simp only [traceBack, hp]
        rw [ht]
        refine ⟨rfl, ?_, List.chain'_singleton _⟩
        simp only [nodeOK, hp] at hnode
        rw [List.getLast?_singleton, Option.map_some', hnode]
      | some p =>
        have ht : traceBack nodes (fuel + 1) i =
            nodes.getD i default :: traceBack nodes fuel p := by
          simp only [traceBack, hp]
        simp only [nodeOK, hp] at hnode
        obtain ⟨hpi, hmem⟩ := hnode
        have hplen : p < nodes.length := lt_trans hpi hi
        have hpfuel : p < fuel := lt_of_lt_of_le hpi (Nat.lt_succ_iff.mp hfuel)
        obtain ⟨ih1, ih2, ih3⟩ := ih p hpi hplen fuel hpfuel
        rw [ht]
        cases hbl : traceBack nodes fuel p with
        | nil => rw [hbl] at ih1; exact absurd ih1 (by simp)
        | cons hd tl =>
          rw [hbl] at ih1 ih2 ih3
          have hhd : hd = nodes.getD p default := by
            simp only [List.head?_cons, Option.some.injEq] at ih1
            exact ih1
          refine ⟨rfl, ?_, ?_⟩
          · exact ih2
          · refine List.Chain'.cons' ih3 ?_
            intro y hy
            simp only [List.head?_cons, Option.mem_def, Option.some.injEq] at hy
            rw [← hy, hhd]
            exact hmem

lemma pushCand_inv [Inhabited σ] [Inhabited π] (S : Strat σ π ε)
    (succs : σ → List σ) (initial : σ) (hS : StratOK S succs initial)
    (pidx : Nat) (pn : SNode σ π) (c : Core σ π ε) (s : σ)
    (hInv : Inv succs initial c) (hpidx : pidx < c.nodes.length)
    (hpn : getNode c pidx = pn) (hs : s ∈ succs pn.state) :
    Inv succs initial (pushCand S pidx pn c s) ∧
    pidx < (pushCand S pidx pn c s).nodes.length ∧
    getNode (pushCand S pidx pn c s) pidx = pn := by
  obtain ⟨hok, hfr, hvis⟩ := hInv
  have hn := hS.push_nodes c.nodes.length (mkChild S s pidx pn) c
  have hv := hS.push_visited c.nodes.length (mkChild S s pidx pn) c
  have hf := hS.push_front_sub c.nodes.length (mkChild S s pidx pn) c
  simp only [pushCand]
  by_cases hr : (S.fpush c.nodes.length (mkChild S s pidx pn) c).1 = true
  · rw [if_pos hr]
    have hcandOK : nodeOK succs initial c.nodes (mkChild S s pidx pn) c.nodes.length := by
      simp only [nodeOK, mkChild]
      exact ⟨hpidx, by rw [show c.nodes.getD pidx default = pn from hpn]; exact hs⟩
    have hlen : ((S.fpush c.nodes.length (mkChild S s pidx pn) c).2.nodes ++
        [mkChild S s pidx pn]).length = c.nodes.length + 1 := by
      rw [hn]; simp
    refine ⟨⟨?_, ?_, ?_⟩, ?_, ?_⟩
    · show nodesOK succs initial _
      rw [hn]
      exact nodesOK_append succs initial c.nodes _ hok hcandOK
    · intro j hj
      rw [hlen]
      rcases hf j hj with hj1 | hj1
      · exact lt_trans (hfr j hj1) (Nat.lt_succ_self _)
      · rw [hj1.2]; exact Nat.lt_succ_self _
    · intro v hv2
      rw [hlen]
      rw [hv] at hv2
      exact lt_trans (hvis v hv2) (Nat.lt_succ_self _)
    · rw [hlen]; exact lt_trans hpidx (Nat.lt_succ_self _)
    · show getNode _ pidx = pn
      simp only [getNode]
      rw [hn, List.getD_append c.nodes _ default pidx hpidx]
      exact hpn
  · rw [if_neg hr]
    refine ⟨⟨?_, ?_, ?_⟩, ?_, ?_⟩
    · show nodesOK succs initial _
      rw [hn]; exact hok
    · intro j hj
      rw [hn]
      rcases hf j hj with hj1 | hj1
      · exact hfr j hj1
      · exact absurd hj1.1 hr
    · intro v hv2
      rw [hn]
      rw [hv] at hv2
      exact hvis v hv2
    · rw [hn]; exact hpidx
    · show getNode _ pidx = pn
      simp only [getNode]
      rw [hn]
      exact hpn

lemma expand_fold_inv [Inhabited σ] [Inhabited π] (S : Strat σ π ε)
    (succs : σ → List σ) (initial : σ) (hS : StratOK S succs initial)
    (pidx : Nat) (pn : SNode σ π) :
    ∀ (ss : List σ) (c : Core σ π ε), Inv succs initial c →
      pidx < c.nodes.length → getNode c pidx = pn →
      (∀ s ∈ ss, s ∈ succs pn.state) →
      Inv succs initial (ss.foldl (pushCand S pidx pn) c) := by
  intro ss
  induction ss with
  | nil => intro c h _ _ _; exact h
  | cons s ss ih =>
    intro c hInv hpidx hpn hss
    rw [List.foldl_cons]
    obtain ⟨h1, h2, h3⟩ := pushCand_inv S succs initial hS pidx pn c s hInv hpidx hpn
      (hss s (List.mem_cons_self s ss))
    exact ih _ h1 h2 h3 (fun t ht => hss t (List.mem_cons_of_mem s ht))

lemma expand_inv [Inhabited σ] [Inhabited π] (S : Strat σ π ε)
    (succs : σ → List σ) (initial : σ) (hS : StratOK S succs initial)
    (pidx : Nat) (pn : SNode σ π) (c : Core σ π ε)
    (hInv : Inv succs initial c) (hpidx : pidx < c.nodes.length)
    (hpn : getNode c pidx = pn) :
    Inv succs initial (expand S succs pidx pn c) :=
  expand_fold_inv S succs initial hS pidx pn (succs pn.state) c hInv hpidx hpn
    (fun _ hs => hs)

lemma step_cases [Inhabited σ] [Inhabited π] (S : Strat σ π ε)
    (succs : σ → List σ) (goal : σ → Bool) (initial : σ)
    (hS : StratOK S succs initial) (c : Core σ π ε) (hInv : Inv succs initial c) :
    (∀ c1, step S succs goal c = .cont c1 → Inv succs initial c1) ∧
    (∀ tr c1, step S succs goal c = .done (some tr) c1 →
      tr.head?.map (fun n => n.state) = some initial ∧
      (∃ n, tr.getLast? = some n ∧ goal n.state = true) ∧
      List.Chain' (fun a b => b.state ∈ succs a.state) tr) := by
  have hEi := hS.empty_inv c hInv
  by_cases he : (S.fempty c).1 = true
  · constructor
    · intro c1 hcont
      simp only [step, if_pos he] at hcont
      exact StepRes.noConfusion hcont
    · intro tr c1 hdone
      simp only [step, if_pos he, StepRes.done.injEq] at hdone
      exact absurd hdone.1 (by simp)
  · have hne : (S.fempty c).2.frontier ≠ [] :=
      hS.empty_ne c hInv (Bool.eq_false_iff.mpr (fun h => he h) ▸ rfl)
    have hpopmem := hS.pop_mem (S.fempty c).2 hne
    have hpopn := hS.pop_nodes (S.fempty c).2
    have hpopv := hS.pop_visited (S.fempty c).2
    have hpopf := hS.pop_front_sub (S.fempty c).2
    have hpil : (S.fpop (S.fempty c).2).1 < (S.fpop (S.fempty c).2).2.nodes.length := by
      rw [hpopn]; exact hEi.2.1 _ hpopmem
    have hInv1 : Inv succs initial (S.fpop (S.fempty c).2).2 := by
      refine ⟨?_, ?_, ?_⟩
      · show nodesOK succs initial _
        rw [hpopn]; exact hEi.1
      · intro j hj
        rw [hpopn]
        exact hEi.2.1 j (hpopf j hj)
      · intro v hv
        rw [hpopn, hpopv] at *
        exact hEi.2.2 v hv
    by_cases hg : goal (getNode (S.fpop (S.fempty c).2).2 (S.fpop (S.fempty c).2).1).state = true
    · constructor
      · intro c1 hcont
        simp only [step, if_neg he, if_pos hg] at hcont
        exact StepRes.noConfusion hcont
      · intro tr c1 hdone
        simp only [step, if_neg he, if_pos hg, StepRes.done.injEq, Option.some.injEq] at hdone
        obtain ⟨htr, hc1⟩ := hdone
        obtain ⟨h1, h2, h3⟩ := traceBack_spec succs initial (S.fpop (S.fempty c).2).2.nodes
          hInv1.1 (S.fpop (S.fempty c).2).1 hpil (S.fpop (S.fempty c).2).2.nodes.length hpil
        refine ⟨?_, ?_, ?_⟩
        · rw [← htr, List.head?_reverse]
          exact h2
        · refine ⟨getNode (S.fpop (S.fempty c).2).2 (S.fpop (S.fempty c).2).1, ?_, hg⟩
          rw [← htr, List.getLast?_reverse]
          exact h1
        · rw [← htr]
          rw [List.chain'_reverse]
          exact h3
    · constructor
      · intro c1 hcont
        simp only [step, if_neg he, if_neg hg, StepRes.cont.injEq] at hcont
        rw [← hcont]
        refine expand_inv S succs initial hS _ _ _ ?_ ?_ rfl
        · refine ⟨hInv1.1, ?_, ?_⟩
          · intro j hj
            exact hInv1.2.1 j hj
          · intro v hv
            rcases List.mem_cons.mp hv with h0 | h0
            · rw [h0]; exact hpil
            · exact hInv1.2.2 v h0
        · exact hpil
      · intro tr c1 hdone
        simp only [step, if_neg he, if_neg hg] at hdone
        exact StepRes.noConfusion hdone

lemma loop_path [Inhabited σ] [Inhabited π] (S : Strat σ π ε)
    (succs : σ → List σ) (goal : σ → Bool) (initial : σ)
    (hS : StratOK S succs initial) :
    ∀ (fuel : Nat) (c : Core σ π ε), Inv succs initial c →
      ∀ (tr : List (SNode σ π)) (c' : Core σ π ε),
        loop S succs goal fuel c = some (some tr, c') →
        tr.head?.map (fun n => n.state) = some initial ∧
        (∃ n, tr.getLast? = some n ∧ goal n.state = true) ∧
        List.Chain' (fun a b => b.state ∈ succs a.state) tr := by
  intro fuel
  induction fuel with
  | zero => intro c _ tr c' h; simp [loop] at h
  | succ f ih =>
    intro c hInv tr c' h
    rw [loop] at h
    cases hs : step S succs goal c with
    | done r c1 =>
      rw [hs] at h
      simp only [Option.some.injEq, Prod.mk.injEq] at h
      obtain ⟨h1, h2⟩ := h
      exact (step_cases S succs goal initial hS c hInv).2 tr c1
        (by rw [hs, h1])
    | cont c1 =>
      rw [hs] at h
      exact ih c1 ((step_cases S succs goal initial hS c hInv).1 c1 hs) tr c' h

lemma initCore_inv [Inhabited σ] [Inhabited π] (S : Strat σ π ε)
    (succs : σ → List σ) (initial : σ) :
    Inv succs initial (initCore S initial) := by
  refine ⟨?_, ?_, ?_⟩
  · intro i hi
    simp only [initCore, List.length_singleton] at hi
    have : i = 0 := by omega
    subst this
    simp only [initCore, mkRoot, List.getD_cons_zero, nodeOK]
  · intro j hj
    simp only [initCore, List.mem_singleton] at hj
    subst hj
    simp [initCore]
  · intro v hv
    simp only [initCore, List.not_mem_nil] at hv

lemma isEmpty_false_ne_nil {l : List Nat} (h : l.isEmpty = false) : l ≠ [] := by
  cases l with
  | nil => cases h
  | cons a l => exact List.cons_ne_nil a l

lemma basePush_frame (i : Nat) (n : SNode σ π) (c : Core σ π ε) :
    (basePush i n c).2.nodes = c.nodes ∧ (basePush i n c).2.visited = c.visited ∧
    ∀ j ∈ (basePush i n c).2.frontier,
      j ∈ c.frontier ∨ ((basePush i n c).1 = true ∧ j = i) := by
  by_cases h : i ∈ c.visited
  · have hb : basePush i n c = (false, c) := if_pos h
    rw [hb]
    exact ⟨rfl, rfl, fun j hj => Or.inl hj⟩
  · have hb : basePush i n c = (true, { c with frontier := c.frontier ++ [i] }) := if_neg h
    rw [hb]
    refine ⟨rfl, rfl, ?_⟩
    intro j hj
    rcases List.mem_append.mp hj with h1 | h1
    · exact Or.inl h1
    · exact Or.inr ⟨rfl, List.mem_singleton.mp h1⟩

lemma popFront_spec (c : Core σ π ε) :
    (c.frontier ≠ [] → (popFront c).1 ∈ c.frontier) ∧
    (popFront c).2.nodes = c.nodes ∧ (popFront c).2.visited = c.visited ∧
    ∀ j ∈ (popFront c).2.frontier, j ∈ c.frontier := by
  rcases c with ⟨nodes, frontier, visited, extra, log⟩
  cases frontier with
  | nil => exact ⟨fun h => absurd rfl h, rfl, rfl, fun _ hj => hj⟩
  | cons a r =>
    exact ⟨fun _ => List.mem_cons_self a r, rfl, rfl,
      fun j hj => List.mem_cons_of_mem a hj⟩

lemma popBack_spec (c : Core σ π ε) :
    (c.frontier ≠ [] → (popBack c).1 ∈ c.frontier) ∧
    (popBack c).2.nodes = c.nodes ∧ (popBack c).2.visited = c.visited ∧
    ∀ j ∈ (popBack c).2.frontier, j ∈ c.frontier := by
  rcases c with ⟨nodes, frontier, visited, extra, log⟩
  cases frontier with
  | nil => exact ⟨fun h => absurd rfl h, rfl, rfl, fun _ hj => hj⟩
  | cons a r =>
    refine ⟨fun _ => ?_, rfl, rfl, ?_⟩
    · show ((a :: r).getLast?.getD 0) ∈ a :: r
      rw [List.getLast?_eq_getLast_of_ne_nil (List.cons_ne_nil a r)]
      exact List.getLast_mem _
    · intro j hj
      exact List.mem_of_mem_dropLast hj

lemma foldl_min_mem (key : Nat → Int) : ∀ (r : List Nat) (i : Nat),
    r.foldl (fun b j => if key j < key b then j else b) i ∈ i :: r := by
  intro r
  induction r with
  | nil => intro i; simp
  | cons a r ih =>
    intro i
    rw [List.foldl_cons]
    by_cases h : key a < key i
    · rw [if_pos h]
      exact List.mem_cons_of_mem i (ih a)
    · rw [if_neg h]
      rcases List.mem_cons.mp (ih i) with h1 | h1
      · rw [h1]; exact List.mem_cons_self i _
      · exact List.mem_cons_of_mem i (List.mem_cons_of_mem a h1)

lemma popMinBy_spec [Inhabited σ] [Inhabited π] (key : Nat → Int) (c : Core σ π ε) :
    (c.frontier ≠ [] → (popMinBy key c).1 ∈ c.frontier) ∧
    (popMinBy key c).2.nodes = c.nodes ∧
    (popMinBy key c).2.visited = c.visited ∧
    ∀ j ∈ (popMinBy key c).2.frontier, j ∈ c.frontier := by
  rcases c with ⟨nodes, frontier, visited, extra, log⟩
  cases frontier with
  | nil => exact ⟨fun h => absurd rfl h, rfl, rfl, fun _ hj => hj⟩
  | cons a r =>
    refine ⟨fun _ => ?_, rfl, rfl, ?_⟩
    · exact foldl_min_mem key r a
    · intro j hj
      exact List.mem_of_mem_erase hj

lemma bfs_stratOK [Inhabited σ] (succs : σ → List σ) (initial : σ) :
    StratOK (bfsStrat σ) succs initial := by
  refine ⟨fun c h => h, fun c _ hf => isEmpty_false_ne_nil hf, ?_, ?_, ?_, ?_, ?_, ?_, ?_⟩
  · exact fun c h => (popFront_spec c).1 h
  · exact fun c => (popFront_spec c).2.1
  · exact fun c => (popFront_spec c).2.2.1
  · exact fun c => (popFront_spec c).2.2.2
  · exact fun i n c => (basePush_frame i n c).1
  · exact fun i n c => (basePush_frame i n c).2.1
  · exact fun i n c => (basePush_frame i n c).2.2

lemma dfs_stratOK [Inhabited σ] (succs : σ → List σ) (initial : σ) :
    StratOK (dfsStrat σ) succs initial := by
  refine ⟨fun c h => h, fun c _ hf => isEmpty_false_ne_nil hf, ?_, ?_, ?_, ?_, ?_, ?_, ?_⟩
  · exact fun c h => (popBack_spec c).1 h
  · exact fun c => (popBack_spec c).2.1
  · exact fun c => (popBack_spec c).2.2.1
  · exact fun c => (popBack_spec c).2.2.2
  · exact fun i n c => (basePush_frame i n c).1
  · exact fun i n c => (basePush_frame i n c).2.1
  · exact fun i n c => (basePush_frame i n c).2.2

lemma ucs_stratOK [Inhabited σ] (cost : σ → Int) (succs : σ → List σ) (initial : σ) :
    StratOK (ucsStrat cost) succs initial := by
  refine ⟨fun c h => h, fun c _ hf => isEmpty_false_ne_nil hf, ?_, ?_, ?_, ?_, ?_, ?_, ?_⟩
  · exact fun c h => (popMinBy_spec (fun i => (getNode c i).payload) c).1 h
  · exact fun c => (popMinBy_spec (fun i => (getNode c i).payload) c).2.1
  · exact fun c => (popMinBy_spec (fun i => (getNode c i).payload) c).2.2.1
  · exact fun c => (popMinBy_spec (fun i => (getNode c i).payload) c).2.2.2
  · exact fun i n c => (basePush_frame i n c).1
  · exact fun i n c => (basePush_frame i n c).2.1
  · exact fun i n c => (basePush_frame i n c).2.2

lemma astarPush_frame [Inhabited σ] (i : Nat) (n : SNode σ (Int × Int))
    (c : Core σ (Int × Int) Unit) :
    (astarPush i n c).2.nodes = c.nodes ∧ (astarPush i n c).2.visited = c.visited ∧
    ∀ j ∈ (astarPush i n c).2.frontier,
      j ∈ c.frontier ∨ ((astarPush i n c).1 = true ∧ j = i) := by
  cases hfind : c.visited.find? (fun v => v == i) with
  | none =>
    have hb : astarPush i n c = basePush i n c := by
      unfold astarPush
      rw [hfind]
    rw [hb]
    exact basePush_frame i n c
  | some v =>
    have hb : astarPush i n c = (false, c) := by
      unfold astarPush
      rw [hfind, if_pos (le_refl _)]
    rw [hb]
    exact ⟨rfl, rfl, fun j hj => Or.inl hj⟩

lemma astar_stratOK [Inhabited σ] (cost : σ → Int) (h : σ → Int)
    (succs : σ → List σ) (initial : σ) :
    StratOK (astarStrat cost h) succs initial := by
  refine ⟨fun c hc => hc, fun c _ hf => isEmpty_false_ne_nil hf, ?_, ?_, ?_, ?_, ?_, ?_, ?_⟩
  · exact fun c hc => (popMinBy_spec (fun i => (getNode c i).payload.2) c).1 hc
  · exact fun c => (popMinBy_spec (fun i => (getNode c i).payload.2) c).2.1
  · exact fun c => (popMinBy_spec (fun i => (getNode c i).payload.2) c).2.2.1
  · exact fun c => (popMinBy_spec (fun i => (getNode c i).payload.2) c).2.2.2
  · exact fun i n c => (astarPush_frame i n c).1
  · exact fun i n c => (astarPush_frame i n c).2.1
  · exact fun i n c => (astarPush_frame i n c).2.2

lemma iddfsPush_frame [Inhabited σ] (i : Nat) (n : SNode σ Nat)
    (c : Core σ Nat IDState) :
    (iddfsPush i n c).2.nodes = c.nodes ∧ (iddfsPush i n c).2.visited = c.visited ∧
    ∀ j ∈ (iddfsPush i n c).2.frontier,
      j ∈ c.frontier ∨ ((iddfsPush i n c).1 = true ∧ j = i) := by
  by_cases h1 : i ∈ c.visited
  · have hb : iddfsPush i n c = (false, c) := if_pos h1
    rw [hb]
    exact ⟨rfl, rfl, fun j hj => Or.inl hj⟩
  · by_cases h2 : n.payload > c.extra.maxDepth
    · have hb : iddfsPush i n c = (false, { c with extra := ⟨c.extra.maxDepth, true⟩ }) := by
        unfold iddfsPush
        rw [if_neg h1, if_pos h2]
      rw [hb]
      exact ⟨rfl, rfl, fun j hj => Or.inl hj⟩
    · have hb : iddfsPush i n c = basePush i n c := by
        unfold iddfsPush
        rw [if_neg h1, if_neg h2]
      rw [hb]
      exact basePush_frame i n c

lemma iddfsEmpty_cases [Inhabited σ] (initial : σ) (c : Core σ Nat IDState) :
    (iddfsEmpty initial c = (false, c) ∧ c.frontier ≠ []) ∨
    (iddfsEmpty initial c =
      (false, ⟨[⟨initial, none, 0⟩], [0], [], ⟨c.extra.maxDepth + 1, false⟩, c.log⟩)) ∨
    (iddfsEmpty initial c = (true, c)) := by
  by_cases h1 : c.frontier.isEmpty = true
  · by_cases h2 : c.extra.increase = true
    · refine Or.inr (Or.inl ?_)
      unfold iddfsEmpty
      rw [h1, h2]
      rfl
    · refine Or.inr (Or.inr ?_)
      unfold iddfsEmpty
      rw [h1]
      simp only [Bool.not_true, Bool.false_eq_true, if_false]
      rw [if_neg h2]
  · refine Or.inl ⟨?_, ?_⟩
    · unfold iddfsEmpty
      have h1' : c.frontier.isEmpty = false := by
        cases hb : c.frontier.isEmpty
        · rfl
        · exact absurd hb h1
      rw [h1']
      rfl
    · exact isEmpty_false_ne_nil (by
        cases hb : c.frontier.isEmpty
        · rfl
        · exact absurd hb h1)

lemma iddfs_restart_inv [Inhabited σ] (initial : σ) (succs : σ → List σ)
    (d : Nat) (lg : List σ) :
    Inv succs initial
      (⟨[⟨initial, none, 0⟩], [0], [], ⟨d, false⟩, lg⟩ : Core σ Nat IDState) := by
  refine ⟨?_, ?_, ?_⟩
  · intro i hi
    simp only [List.length_singleton] at hi
    have : i = 0 := by omega
    subst this
    simp only [List.getD_cons_zero, nodeOK]
  · intro j hj
    simp only [List.mem_singleton] at hj
    subst hj
    simp
  · intro v hv
    simp at hv

lemma iddfs_stratOK [Inhabited σ] (initial : σ) (succs : σ → List σ) :
    StratOK (iddfsStrat initial) succs initial := by
  refine ⟨?_, ?_, ?_, ?_, ?_, ?_, ?_, ?_, ?_⟩
  · intro c h
    show Inv succs initial (iddfsEmpty initial c).2
    rcases iddfsEmpty_cases initial c with ⟨he, _⟩ | he | he
    · rw [he]; exact h
    · rw [he]; exact iddfs_restart_inv initial succs _ _
    · rw [he]; exact h
  · intro c h hf
    have hf' : (iddfsEmpty initial c).1 = false := hf
    show (iddfsEmpty initial c).2.frontier ≠ []
    rcases iddfsEmpty_cases initial c with ⟨he, hne⟩ | he | he
    · rw [he]; exact hne
    · rw [he]; simp
    · rw [he] at hf'; exact absurd hf' (by simp)
  · exact fun c h => (popBack_spec c).1 h
  · exact fun c => (popBack_spec c).2.1
  · exact fun c => (popBack_spec c).2.2.1
  · exact fun c => (popBack_spec c).2.2.2
  · exact fun i n c => (iddfsPush_frame i n c).1
  · exact fun i n c => (iddfsPush_frame i n c).2.1
  · exact fun i n c => (iddfsPush_frame i n c).2.2

lemma projNode_default [Inhabited σ] :
    projNode (default : SNode σ (Int × Int)) = (default : SNode σ Int) := rfl

lemma getNode_proj [Inhabited σ] (c : Core σ (Int × Int) Unit) (i : Nat) :
    getNode (projCore c) i = projNode (getNode c i) := by
  simp only [getNode, projCore]
  by_cases h : i < c.nodes.length
  · rw [List.getD_eq_getElem _ _ (by simpa using h), List.getD_eq_getElem _ _ h]
    simp
  · rw [List.getD_eq_default _ _ (by simpa using Nat.le_of_not_lt h),
      List.getD_eq_default _ _ (Nat.le_of_not_lt h)]
    rfl

lemma key_eq_of_TotEq [Inhabited σ] (c : Core σ (Int × Int) Unit) (h : TotEq c) :
    ∀ i, (getNode c i).payload.2 = (getNode c i).payload.1 := by
  intro i
  simp only [getNode]
  by_cases hi : i < c.nodes.length
  · rw [List.getD_eq_getElem _ _ hi]
    exact h _ (List.getElem_mem hi)
  · rw [List.getD_eq_default _ _ (Nat.le_of_not_lt hi)]
    rfl

lemma popMinBy_proj [Inhabited σ] (key : Nat → Int) (c : Core σ (Int × Int) Unit) :
    popMinBy key (projCore c) =
      ((popMinBy key c).1, projCore (popMinBy key c).2) := by
  rcases c with ⟨nodes, frontier, visited, extra, log⟩
  cases frontier with
  | nil => rfl
  | cons a r => rfl

lemma basePush_proj [Inhabited σ] (i : Nat) (n : SNode σ (Int × Int))
    (c : Core σ (Int × Int) Unit) :
    basePush i (projNode n) (projCore c) =
      ((basePush i n c).1, projCore (basePush i n c).2) := by
  by_cases h : i ∈ c.visited
  · have h' : i ∈ (projCore c).visited := h
    rw [show basePush i n c = (false, c) from if_pos h,
      show basePush i (projNode n) (projCore c) = (false, projCore c) from if_pos h']
  · have h' : i ∉ (projCore c).visited := h
    rw [show basePush i n c =
        (true, { c with frontier := c.frontier ++ [i] }) from if_neg h,
      show basePush i (projNode n) (projCore c) =
        (true, { projCore c with frontier := (projCore c).frontier ++ [i] }) from if_neg h']
    rfl

lemma astarPush_proj [Inhabited σ] (i : Nat) (n : SNode σ (Int × Int))
    (c : Core σ (Int × Int) Unit) :
    basePush i (projNode n) (projCore c) =
      ((astarPush i n c).1, projCore (astarPush i n c).2) := by
  cases hfind : c.visited.find? (fun v => v == i) with
  | none =>
    have hb : astarPush i n c = basePush i n c := by
      unfold astarPush; rw [hfind]
    rw [hb]
    exact basePush_proj i n c
  | some v =>
    have hb : astarPush i n c = (false, c) := by
      unfold astarPush; rw [hfind, if_pos (le_refl _)]
    have hmem : i ∈ c.visited := by
      have h1 := List.find?_some hfind
      have h2 := List.mem_of_find?_eq_some hfind
      have : v = i := by simpa using h1
      rw [← this]
      exact h2
    have h' : i ∈ (projCore c).visited := hmem
    rw [hb, show basePush i (projNode n) (projCore c) = (false, projCore c) from if_pos h']

lemma mkChild_proj [Inhabited σ] (cost : σ → Int) (s : σ) (pidx : Nat)
    (pn : SNode σ (Int × Int)) :
    projNode (mkChild (astarStrat cost (fun _ => 0)) s pidx pn) =
      mkChild (ucsStrat cost) s pidx (projNode pn) := by
  simp only [mkChild, projNode, astarStrat, ucsStrat, astarPayload, ucsPayload]

lemma mkChild_totEq [Inhabited σ] (cost : σ → Int) (s : σ) (pidx : Nat)
    (pn : SNode σ (Int × Int)) :
    (mkChild (astarStrat cost (fun _ => 0)) s pidx pn).payload.2 =
      (mkChild (astarStrat cost (fun _ => 0)) s pidx pn).payload.1 := by
  simp only [mkChild, astarStrat, astarPayload]
  ring

lemma pushCand_proj [Inhabited σ] (cost : σ → Int) (pidx : Nat)
    (pn : SNode σ (Int × Int)) (c : Core σ (Int × Int) Unit) (s : σ) :
    pushCand (ucsStrat cost) pidx (projNode pn) (projCore c) s =
      projCore (pushCand (astarStrat cost (fun _ => 0)) pidx pn c s) := by
  have hcore : (ucsStrat cost).fpush (projCore c).nodes.length
      (mkChild (ucsStrat cost) s pidx (projNode pn)) (projCore c) =
      (((astarStrat cost (fun _ => 0)).fpush c.nodes.length
          (mkChild (astarStrat cost (fun _ => 0)) s pidx pn) c).1,
        projCore ((astarStrat cost (fun _ => 0)).fpush c.nodes.length
          (mkChild (astarStrat cost (fun _ => 0)) s pidx pn) c).2) := by
    show basePush (projCore c).nodes.length
        (mkChild (ucsStrat cost) s pidx (projNode pn)) (projCore c) = _
    have hlen : (projCore c).nodes.length = c.nodes.length := by simp [projCore]
    rw [hlen, ← mkChild_proj cost s pidx pn]
    exact astarPush_proj c.nodes.length _ c
  simp only [pushCand, hcore]
  by_cases hr : ((astarStrat cost (fun _ => 0)).fpush c.nodes.length
      (mkChild (astarStrat cost (fun _ => 0)) s pidx pn) c).1 = true
  · rw [if_pos hr, if_pos hr]
    simp only [projCore, List.map_append, List.map_cons, List.map_nil,
      mkChild_proj]
  · rw [if_neg hr, if_neg hr]

lemma TotEq_pushCand [Inhabited σ] (cost : σ → Int) (pidx : Nat)
    (pn : SNode σ (Int × Int)) (c : Core σ (Int × Int) Unit) (s : σ)
    (h : TotEq c) :
    TotEq (pushCand (astarStrat cost (fun _ => 0)) pidx pn c s) := by
  simp only [pushCand]
  by_cases hr : ((astarStrat cost (fun _ => 0)).fpush c.nodes.length
      (mkChild (astarStrat cost (fun _ => 0)) s pidx pn) c).1 = true
  · rw [if_pos hr]
    intro n hn
    have hnodes : ((astarStrat cost (fun _ => 0)).fpush c.nodes.length
        (mkChild (astarStrat cost (fun _ => 0)) s pidx pn) c).2.nodes = c.nodes :=
      (astarPush_frame _ _ _).1
    rw [hnodes] at hn
    rcases List.mem_append.mp hn with h1 | h1
    · exact h n h1
    · rw [List.mem_singleton.mp h1]
      exact mkChild_totEq cost s pidx pn
  · rw [if_neg hr]
    intro n hn
    have hnodes : ((astarStrat cost (fun _ => 0)).fpush c.nodes.length
        (mkChild (astarStrat cost (fun _ => 0)) s pidx pn) c).2.nodes = c.nodes :=
      (astarPush_frame _ _ _).1
    rw [hnodes] at hn
    exact h n hn

lemma expand_fold_proj [Inhabited σ] (cost : σ → Int) (pidx : Nat)
    (pn : SNode σ (Int × Int)) :
    ∀ (ss : List σ) (c : Core σ (Int × Int) Unit), TotEq c →
      (ss.foldl (pushCand (ucsStrat cost) pidx (projNode pn)) (projCore c) =
        projCore (ss.foldl (pushCand (astarStrat cost (fun _ => 0)) pidx pn) c)) ∧
      TotEq (ss.foldl (pushCand (astarStrat cost (fun _ => 0)) pidx pn) c) := by
  intro ss
  induction ss with
  | nil => exact fun c h => ⟨rfl, h⟩
  | cons s ss ih =>
    intro c h
    rw [List.foldl_cons, List.foldl_cons, pushCand_proj cost pidx pn c s]
    exact ih _ (TotEq_pushCand cost pidx pn c s h)

lemma expand_proj [Inhabited σ] (cost : σ → Int) (succs : σ → List σ) (pidx : Nat)
    (pn : SNode σ (Int × Int)) (c : Core σ (Int × Int) Unit) (h : TotEq c) :
    (expand (ucsStrat cost) succs pidx (projNode pn) (projCore c) =
      projCore (expand (astarStrat cost (fun _ => 0)) succs pidx pn c)) ∧
    TotEq (expand (astarStrat cost (fun _ => 0)) succs pidx pn c) := by
  simp only [expand, projNode]
  exact expand_fold_proj cost pidx pn (succs pn.state) c h

lemma getD_map_proj [Inhabited σ] (nodes : List (SNode σ (Int × Int))) (i : Nat) :
    (nodes.map projNode).getD i default = projNode (nodes.getD i default) := by
  by_cases h : i < nodes.length
  · rw [List.getD_eq_getElem _ _ (by simpa using h), List.getD_eq_getElem _ _ h]
    simp
  · rw [List.getD_eq_default _ _ (by simpa using Nat.le_of_not_lt h),
      List.getD_eq_default _ _ (Nat.le_of_not_lt h)]
    rfl

lemma traceBack_proj [Inhabited σ] (nodes : List (SNode σ (Int × Int))) :
    ∀ (fuel i : Nat),
      traceBack (nodes.map projNode) fuel i = (traceBack nodes fuel i).map projNode := by
  intro fuel
  induction fuel with
  | zero => intro i; rfl
  | succ f ih =>
    intro i
    cases hp : (nodes.getD i default).parent with
    | none =>
      have hp' : ((nodes.map projNode).getD i default).parent = none := by
        rw [getD_map_proj]; exact hp
      have h1 : traceBack nodes (f + 1) i = [nodes.getD i default] := by
        simp only [traceBack, hp]
      have h2 : traceBack (nodes.map projNode) (f + 1) i =
          [(nodes.map projNode).getD i default] := by
        simp only [traceBack, hp']
      rw [h1, h2, getD_map_proj]
      rfl
    | some p =>
      have hp' : ((nodes.map projNode).getD i default).parent = some p := by
        rw [getD_map_proj]; exact hp
      have h1 : traceBack nodes (f + 1) i =
          nodes.getD i default :: traceBack nodes f p := by
        simp only [traceBack, hp]
      have h2 : traceBack (nodes.map projNode) (f + 1) i =
          (nodes.map projNode).getD i default :: traceBack (nodes.map projNode) f p := by
        simp only [traceBack, hp']
      rw [h1, h2, getD_map_proj, ih p]
      rfl

lemma projNode_state (n : SNode σ (Int × Int)) : (projNode n).state = n.state := rfl

lemma step_proj [Inhabited σ] (cost : σ → Int) (succs : σ → List σ) (goal : σ → Bool)
    (c : Core σ (Int × Int) Unit) (h : TotEq c) :
    step (ucsStrat cost) succs goal (projCore c) =
      projRes (step (astarStrat cost (fun _ => 0)) succs goal c) ∧
    (∀ c1, step (astarStrat cost (fun _ => 0)) succs goal c = .cont c1 → TotEq c1) := by
  have hfe_a : (astarStrat cost (fun _ => 0)).fempty c = (c.frontier.isEmpty, c) := rfl
  have hfe_u : (ucsStrat cost).fempty (projCore c) = (c.frontier.isEmpty, projCore c) := rfl
  by_cases he : c.frontier.isEmpty = true
  · have hstepA : step (astarStrat cost (fun _ => 0)) succs goal c = .done none c := by
      simp only [step, hfe_a, he, if_true]
    have hstepU : step (ucsStrat cost) succs goal (projCore c) = .done none (projCore c) := by
      simp only [step, hfe_u, he, if_true]
    rw [hstepA, hstepU]
    exact ⟨rfl, fun c1 hc1 => StepRes.noConfusion hc1⟩
  · have hkey : (fun i => (getNode (projCore c) i).payload) =
        (fun i => (getNode c i).payload.2) := by
      funext i
      rw [getNode_proj]
      exact (key_eq_of_TotEq c h i).symm
    have hpop : (ucsStrat cost).fpop (projCore c) =
        (((astarStrat cost (fun _ => 0)).fpop c).1,
          projCore ((astarStrat cost (fun _ => 0)).fpop c).2) := by
      show popMinBy (fun i => (getNode (projCore c) i).payload) (projCore c) = _
      rw [hkey]
      exact popMinBy_proj _ c
    have hpopnodes : ((astarStrat cost (fun _ => 0)).fpop c).2.nodes = c.nodes := by
      exact (popMinBy_spec (fun i => (getNode c i).payload.2) c).2.1
    have hnode : getNode (((astarStrat cost (fun _ => 0)).fpop c).1,
          projCore ((astarStrat cost (fun _ => 0)).fpop c).2).2
        (((astarStrat cost (fun _ => 0)).fpop c).1,
          projCore ((astarStrat cost (fun _ => 0)).fpop c).2).1 =
        projNode (getNode ((astarStrat cost (fun _ => 0)).fpop c).2
          ((astarStrat cost (fun _ => 0)).fpop c).1) := by
      exact getNode_proj _ _
    by_cases hg : goal ((getNode ((astarStrat cost (fun _ => 0)).fpop c).2
        ((astarStrat cost (fun _ => 0)).fpop c).1).state) = true
    · have hgU : goal ((getNode (((astarStrat cost (fun _ => 0)).fpop c).1,
            projCore ((astarStrat cost (fun _ => 0)).fpop c).2).2
          (((astarStrat cost (fun _ => 0)).fpop c).1,
            projCore ((astarStrat cost (fun _ => 0)).fpop c).2).1).state) = true := by
        rw [hnode]; exact hg
      have hstepA : step (astarStrat cost (fun _ => 0)) succs goal c =
          .done (some ((traceBack ((astarStrat cost (fun _ => 0)).fpop c).2.nodes
              ((astarStrat cost (fun _ => 0)).fpop c).2.nodes.length
              ((astarStrat cost (fun _ => 0)).fpop c).1).reverse))
            (clearCore ((astarStrat cost (fun _ => 0)).fpop c).2) := by
        simp only [step, hfe_a, he, Bool.false_eq_true, if_false, hg, if_true]
      have hstepU : step (ucsStrat cost) succs goal (projCore c) =
          .done (some ((traceBack (projCore ((astarStrat cost (fun _ => 0)).fpop c).2).nodes
              (projCore ((astarStrat cost (fun _ => 0)).fpop c).2).nodes.length
              ((astarStrat cost (fun _ => 0)).fpop c).1).reverse))
            (clearCore (projCore ((astarStrat cost (fun _ => 0)).fpop c).2)) := by
        simp only [step, hfe_u, he, Bool.false_eq_true, if_false, hpop, hgU, if_true]
      rw [hstepA, hstepU]
      constructor
      · show StepRes.done _ _ = StepRes.done _ _
        have htr : (traceBack (projCore ((astarStrat cost (fun _ => 0)).fpop c).2).nodes
            (projCore ((astarStrat cost (fun _ => 0)).fpop c).2).nodes.length
            ((astarStrat cost (fun _ => 0)).fpop c).1).reverse =
            ((traceBack ((astarStrat cost (fun _ => 0)).fpop c).2.nodes
              ((astarStrat cost (fun _ => 0)).fpop c).2.nodes.length
              ((astarStrat cost (fun _ => 0)).fpop c).1).reverse).map projNode := by
          show (traceBack (((astarStrat cost (fun _ => 0)).fpop c).2.nodes.map projNode)
              (((astarStrat cost (fun _ => 0)).fpop c).2.nodes.map projNode).length
              ((astarStrat cost (fun _ => 0)).fpop c).1).reverse = _
          rw [List.length_map, traceBack_proj, List.map_reverse]
        rw [htr]
        rfl
      · intro c1 hc1
        exact StepRes.noConfusion hc1
    · have hgU : goal ((getNode (((astarStrat cost (fun _ => 0)).fpop c).1,
            projCore ((astarStrat cost (fun _ => 0)).fpop c).2).2
          (((astarStrat cost (fun _ => 0)).fpop c).1,
            projCore ((astarStrat cost (fun _ => 0)).fpop c).2).1).state) = true → False := by
        rw [hnode]; exact fun hx => hg hx
      have hmarkTot : TotEq { ((astarStrat cost (fun _ => 0)).fpop c).2 with
          visited := ((astarStrat cost (fun _ => 0)).fpop c).1 ::
            ((astarStrat cost (fun _ => 0)).fpop c).2.visited
          log := ((astarStrat cost (fun _ => 0)).fpop c).2.log ++
            [(getNode ((astarStrat cost (fun _ => 0)).fpop c).2
              ((astarStrat cost (fun _ => 0)).fpop c).1).state] } := by
        intro n hn
        simp only at hn
        rw [hpopnodes] at hn
        exact h n hn
      have hexp := expand_proj cost succs ((astarStrat cost (fun _ => 0)).fpop c).1
        (getNode ((astarStrat cost (fun _ => 0)).fpop c).2
          ((astarStrat cost (fun _ => 0)).fpop c).1)
        { ((astarStrat cost (fun _ => 0)).fpop c).2 with
          visited := ((astarStrat cost (fun _ => 0)).fpop c).1 ::
            ((astarStrat cost (fun _ => 0)).fpop c).2.visited
          log := ((astarStrat cost (fun _ => 0)).fpop c).2.log ++
            [(getNode ((astarStrat cost (fun _ => 0)).fpop c).2
              ((astarStrat cost (fun _ => 0)).fpop c).1).state] } hmarkTot
      have hstepA : step (astarStrat cost (fun _ => 0)) succs goal c =
          .cont (expand (astarStrat cost (fun _ => 0)) succs
            ((astarStrat cost (fun _ => 0)).fpop c).1
            (getNode ((astarStrat cost (fun _ => 0)).fpop c).2
              ((astarStrat cost (fun _ => 0)).fpop c).1)
            { ((astarStrat cost (fun _ => 0)).fpop c).2 with
              visited := ((astarStrat cost (fun _ => 0)).fpop c).1 ::
                ((astarStrat cost (fun _ => 0)).fpop c).2.visited
              log := ((astarStrat cost (fun _ => 0)).fpop c).2.log ++
                [(getNode ((astarStrat cost (fun _ => 0)).fpop c).2
                  ((astarStrat cost (fun _ => 0)).fpop c).1).state] }) := by
        simp only [step, hfe_a, he, Bool.false_eq_true, if_false, hg, if_false]
      have hstepU : step (ucsStrat cost) succs goal (projCore c) =
          .cont (expand (ucsStrat cost) succs
            ((astarStrat cost (fun _ => 0)).fpop c).1
            (projNode (getNode ((astarStrat cost (fun _ => 0)).fpop c).2
              ((astarStrat cost (fun _ => 0)).fpop c).1))
            (projCore { ((astarStrat cost (fun _ => 0)).fpop c).2 with
              visited := ((astarStrat cost (fun _ => 0)).fpop c).1 ::
                ((astarStrat cost (fun _ => 0)).fpop c).2.visited
              log := ((astarStrat cost (fun _ => 0)).fpop c).2.log ++
                [(getNode ((astarStrat cost (fun _ => 0)).fpop c).2
                  ((astarStrat cost (fun _ => 0)).fpop c).1).state] })) := by
        simp only [step, hfe_u, he, Bool.false_eq_true, if_false, hpop, hnode, projNode_state]
        rw [if_neg hg]
        rfl
      rw [hstepA, hstepU]
      constructor
      · show StepRes.cont _ = StepRes.cont _
        rw [hexp.1]
      · intro c1 hc1
        have : c1 = expand (astarStrat cost (fun _ => 0)) succs _ _ _ :=
          (StepRes.cont.inj hc1).symm
        rw [this]
        exact hexp.2

lemma loop_proj [Inhabited σ] (cost : σ → Int) (succs : σ → List σ) (goal : σ → Bool) :
    ∀ (fuel : Nat) (c : Core σ (Int × Int) Unit), TotEq c →
      loop (ucsStrat cost) succs goal fuel (projCore c) =
        (loop (astarStrat cost (fun _ => 0)) succs goal fuel c).map
          (fun rc => (rc.1.map (List.map projNode), projCore rc.2)) := by
  intro fuel
  induction fuel with
  | zero => intro c _; rfl
  | succ f ih =>
    intro c h
    rw [loop, loop]
    obtain ⟨hs, htot⟩ := step_proj cost succs goal c h
    rw [hs]
    cases hstep : step (astarStrat cost (fun _ => 0)) succs goal c with
    | done r c1 => rfl
    | cont c1 =>
      show loop (ucsStrat cost) succs goal f (projCore c1) = _
      exact ih c1 (htot c1 hstep)

lemma initCore_proj [Inhabited σ] (cost : σ → Int) (initial : σ) :
    projCore (initCore (astarStrat cost (fun _ => 0)) initial) =
      initCore (ucsStrat cost) initial := by
  simp only [initCore, projCore, mkRoot, projNode, astarStrat, ucsStrat, astarPayload,
    ucsPayload, List.map_cons, List.map_nil]

lemma initCore_totEq [Inhabited σ] (cost : σ → Int) (initial : σ) :
    TotEq (initCore (astarStrat cost (fun _ => 0)) initial) := by
  intro n hn
  simp only [initCore, mkRoot, astarStrat, astarPayload, List.mem_singleton] at hn
  rw [hn]
  simp

end SearchEngine

open SearchEngine

/-- **C1** (refuted, code bug).  The claim says every strategy's
`perform()` terminates with `None` on a finite goal-free state space.  On
the two-state cyclic graph `false ⇄ true` with an always-false goal
predicate, the BFS `perform()` loop never terminates: `m_visited` is an
`unordered_set<Node*, Hash>` whose element equality is the defaulted
pointer equality, so the freshly allocated candidate node is never found
and every successor is re-admitted forever.  Formally: for every fuel
bound, the loop is still running. -/
theorem C1_bfs_unreachable_goal_diverges :
    ∀ fuel, run (bfsStrat Bool) cycSuccs neverGoal false fuel = none := by
  intro fuel
  exact cyc_loop_none (bfsStrat Bool) rfl rfl
    (fun c i h => popFront_singleton c i h) fuel _ (cyc_init _)

/-- **C2** (refuted, code bug).  The claim says no state is expanded more
than once per pass.  Running BFS on the two-state cycle for four
iterations, state `false` is popped, marked in the tracker, and expanded
twice (the ghost log of expanded states is `[false, true, false, true]`),
because the visited check compares `Node*` by pointer and never rejects a
fresh node. -/
theorem C2_bfs_state_expanded_twice :
    (logOf (stepN (bfsStrat Bool) cycSuccs neverGoal 4
      (initCore (bfsStrat Bool) false))).count false = 2 := by decide

/-- **C3** (refuted, code bug).  The claim says an always-false goal makes
`perform()` return `None` with `visited()` equal to the reachable
component, on every finite graph.  On the cyclic two-state graph the DFS
`perform()` (the strategy used by the `Runes::connected` caller) never
returns at all. -/
theorem C3_dfs_connectivity_scan_diverges :
    ∀ fuel, run (dfsStrat Bool) cycSuccs neverGoal false fuel = none := by
  intro fuel
  exact cyc_loop_none (dfsStrat Bool) rfl rfl
    (fun c i h => popBack_singleton c i h) fuel _ (cyc_init _)

/-- **C5** (refuted, code bug).  The claim says A*'s admission test
rejects a candidate whose state is tracked with a less-or-equal total.
Concretely: the tracker holds the pointer of arena node 0 with state
`false` and total `1`; the fresh candidate (would-be index 1) carries the
same state with the strictly worse total `5`; `AStar::frontier_push`
admits it anyway, because `m_visited.find` compares `Node*` by pointer and
never finds a fresh candidate. -/
theorem C5_astar_admits_worse_total :
    astarPush 1 ⟨false, none, (5, 5)⟩
        ⟨[⟨false, none, (1, 1)⟩], [], [0], (), []⟩ =
      (true, ⟨[⟨false, none, (1, 1)⟩], [1], [0], (), []⟩) ∧
    (⟨false, none, (5, 5)⟩ : SNode Bool (Int × Int)).state =
      (⟨false, none, (1, 1)⟩ : SNode Bool (Int × Int)).state ∧
    ((1 : Int) < 5) := by
  refine ⟨?_, rfl, by decide⟩
  decide

/-- **C7** (refuted, code bug).  The claim says an IDDFS candidate whose
state is tracked at an equal depth is never re-admitted.  Concretely: the
tracker holds the pointer of arena node 1 with state `true` at depth `1`;
the fresh candidate (would-be index 2) carries the same state at the same
depth `1 ≤ L = 3`; `IDDFS::frontier_push` admits it, because the visited
lookup compares `Node*` by pointer. -/
theorem C7_iddfs_readmits_equal_depth :
    iddfsPush 2 ⟨true, some 0, 1⟩
        ⟨[⟨false, none, 0⟩, ⟨true, some 0, 1⟩], [], [0, 1], ⟨3, false⟩, []⟩ =
      (true, ⟨[⟨false, none, 0⟩, ⟨true, some 0, 1⟩], [2], [0, 1], ⟨3, false⟩, []⟩) ∧
    (⟨true, some 0, 1⟩ : SNode Bool Nat).state =
      (⟨true, some 0, 1⟩ : SNode Bool Nat).state ∧
    (⟨true, some 0, 1⟩ : SNode Bool Nat).payload =
      (⟨true, some 0, 1⟩ : SNode Bool Nat).payload := by
  exact ⟨by decide, rfl, rfl⟩

/-- **C10** (confirmed).  For the strategies using the base
`Search::frontier_push` (BFS, DFS, UCS), visited-set membership is decided
by pointer equality, so a freshly allocated candidate — whose would-be
arena index `nodes.length` exceeds every tracked index — is always pushed
with result `true`; and BFS, DFS and UCS do use the base push. -/
theorem C10_base_push_never_rejects :
    (∀ (σ π ε : Type) (c : Core σ π ε) (n : SNode σ π),
      (∀ v ∈ c.visited, v < c.nodes.length) →
      basePush c.nodes.length n c =
        (true, { c with frontier := c.frontier ++ [c.nodes.length] })) ∧
    (∀ σ : Type, (bfsStrat σ).fpush = fun i n c => basePush i n c) ∧
    (∀ σ : Type, (dfsStrat σ).fpush = fun i n c => basePush i n c) ∧
    (∀ (σ : Type) [Inhabited σ] (cost : σ → Int),
      (ucsStrat cost).fpush = fun i n c => basePush i n c) := by
  refine ⟨?_, fun _ => rfl, fun _ => rfl, fun _ _ _ => rfl⟩
  intro σ π ε c n hv
  have : ¬ c.nodes.length ∈ c.visited := fun h => absurd (hv _ h) (lt_irrefl _)
  simp only [basePush, if_neg this]

/-- Witness for C10: the base push admits a concrete fresh candidate. -/
theorem C10_witness :
    basePush 1 (⟨true, some 0, ()⟩ : SNode Bool Unit)
        (⟨[⟨false, none, ()⟩], [], [0], (), []⟩ : Core Bool Unit Unit) =
      (true, ⟨[⟨false, none, ()⟩], [1], [0], (), []⟩) := by
  have h := C10_base_push_never_rejects.1 Bool Unit Unit
    ⟨[⟨false, none, ()⟩], [], [0], (), []⟩ ⟨true, some 0, ()⟩ (by decide)
  exact h

/-- **C6** (confirmed).  The IDDFS restart protocol: the cutoff starts at
3 with the deepen flag down; a fresh candidate (pointer not tracked)
whose depth exceeds the cutoff is rejected and raises the flag; an empty
frontier with the flag raised clears the arena, tracker and frontier,
reseeds the root, increments the cutoff, resets the flag, and reports the
frontier non-empty (so the pass restarts instead of exhausting); an empty
frontier with the flag down makes the loop return `None` immediately. -/
theorem C6_iddfs_restart_protocol :
    (∀ (σ : Type) [Inhabited σ] (initial : σ),
      (iddfsStrat initial).eps0 = ⟨3, false⟩) ∧
    (∀ (σ : Type) [Inhabited σ] (initial : σ) (c : Core σ Nat IDState)
        (i : Nat) (n : SNode σ Nat),
      i ∉ c.visited → n.payload > c.extra.maxDepth →
      (iddfsStrat initial).fpush i n c =
        (false, { c with extra := ⟨c.extra.maxDepth, true⟩ })) ∧
    (∀ (σ : Type) [Inhabited σ] (initial : σ) (c : Core σ Nat IDState),
      c.frontier = [] → c.extra.increase = true →
      (iddfsStrat initial).fempty c =
        (false, ⟨[⟨initial, none, 0⟩], [0], [], ⟨c.extra.maxDepth + 1, false⟩, c.log⟩)) ∧
    (∀ (σ : Type) [Inhabited σ] (initial : σ) (succs : σ → List σ)
        (goal : σ → Bool) (fuel : Nat) (c : Core σ Nat IDState),
      c.frontier = [] → c.extra.increase = false →
      loop (iddfsStrat initial) succs goal (fuel + 1) c = some (none, c)) := by
  refine ⟨fun _ _ _ => rfl, ?_, ?_, ?_⟩
  · intro σ _ initial c i n hvis hk
    show iddfsPush i n c = _
    rw [iddfsPush, if_neg hvis, if_pos hk]
  · intro σ _ initial c hf hinc
    show iddfsEmpty initial c = _
    rw [iddfsEmpty, hf]
    simp only [List.isEmpty_nil, Bool.not_true, Bool.false_eq_true, if_false, hinc, if_true]
  · intro σ _ initial succs goal fuel c hf hinc
    have hstep : step (iddfsStrat initial) succs goal c = .done none c := by
      have hemp : (iddfsStrat initial).fempty c = (true, c) := by
        show iddfsEmpty initial c = _
        rw [iddfsEmpty, hf]
        simp only [List.isEmpty_nil, Bool.not_true, Bool.false_eq_true, if_false, hinc]
      simp only [step, hemp, if_true]
    rw [loop, hstep]

/-- Witness for C6, at `σ := Bool`, `initial := false`: the initial
cutoff; a depth-4 candidate rejected with the flag raised; a restart from
an empty frontier with the flag up; and an immediate `None` from an empty
frontier with the flag down. -/
theorem C6_witness :
    ((iddfsStrat false).eps0 = ⟨3, false⟩) ∧
    ((iddfsStrat false).fpush 1 ⟨true, some 0, 4⟩
        ⟨[⟨false, none, 0⟩], [], [0], ⟨3, false⟩, []⟩ =
      (false, ⟨[⟨false, none, 0⟩], [], [0], ⟨3, true⟩, []⟩)) ∧
    ((iddfsStrat false).fempty ⟨[⟨false, none, 0⟩], [], [0], ⟨3, true⟩, []⟩ =
      (false, ⟨[⟨false, none, 0⟩], [0], [], ⟨4, false⟩, []⟩)) ∧
    (loop (iddfsStrat false) (fun b => [b]) (fun _ => false) 1
        ⟨[⟨false, none, 0⟩], [], [0], ⟨3, false⟩, []⟩ =
      some (none, ⟨[⟨false, none, 0⟩], [], [0], ⟨3, false⟩, []⟩)) := by
  refine ⟨C6_iddfs_restart_protocol.1 Bool false, ?_, ?_, ?_⟩
  · exact C6_iddfs_restart_protocol.2.1 Bool false _ 1 _ (by decide) (by decide)
  · exact C6_iddfs_restart_protocol.2.2.1 Bool false _ rfl rfl
  · exact C6_iddfs_restart_protocol.2.2.2 Bool false _ _ 0 _ rfl rfl

/-- **C8** (corrected).  `Search::perform` calls `clear()` only on the
success path.  First conjunct (the amended claim's positive part): when a
trace is returned, the final member state has empty arena, tracker and
frontier, for every strategy.  Second conjunct: a concrete exhaustion run
(single state, no successors, goal never true) returns `None` with the
frontier empty only because the loop drained it — the arena still holds
the root and the tracker still holds its pointer. -/
theorem C8_clear_on_success_only :
    (∀ (σ π ε : Type) [Inhabited σ] [Inhabited π] (S : Strat σ π ε)
        (succs : σ → List σ) (goal : σ → Bool) (fuel : Nat) (c : Core σ π ε)
        (tr : List (SNode σ π)) (c' : Core σ π ε),
      loop S succs goal fuel c = some (some tr, c') →
      c'.nodes = [] ∧ c'.visited = [] ∧ c'.frontier = []) ∧
    (run (bfsStrat Bool) (fun _ => []) neverGoal false 2 =
      some (none, ⟨[⟨false, none, ()⟩], [], [0], (), [false]⟩)) := by
  constructor
  · intro σ π ε _ _ S succs goal fuel c tr c' h
    exact loop_success_clear S succs goal fuel c tr c' h
  · decide

/-- Witness for C8's quantified conjunct: a concrete successful BFS run
whose final member state is fully cleared. -/
theorem C8_witness :
    ((⟨[], [], [], (), [false]⟩ : Core Bool Unit Unit).nodes = [] ∧
      (⟨[], [], [], (), [false]⟩ : Core Bool Unit Unit).visited = [] ∧
      (⟨[], [], [], (), [false]⟩ : Core Bool Unit Unit).frontier = []) :=
  C8_clear_on_success_only.1 Bool Unit Unit (bfsStrat Bool)
    (fun b => if b then [] else [true]) (fun b => b) 2
    (initCore (bfsStrat Bool) false)
    [⟨false, none, ()⟩, ⟨true, some 0, ()⟩]
    ⟨[], [], [], (), [false]⟩ (by decide)

/-- Counterexample for C8 as stated: after an exhaustion return the
arena is *not* discarded — it still holds the root node (and the tracker
still holds its pointer). -/
theorem C8_counterexample :
    run (bfsStrat Bool) (fun _ => []) neverGoal false 2 =
      some (none, ⟨[⟨false, none, ()⟩], [], [0], (), [false]⟩) ∧
    ((⟨[⟨false, none, ()⟩], [], [0], (), [false]⟩ : Core Bool Unit Unit).nodes ≠ [] ∧
      (⟨[⟨false, none, ()⟩], [], [0], (), [false]⟩ : Core Bool Unit Unit).visited ≠ []) := by
  exact ⟨by decide, by decide, by decide⟩

/-- **C4** (confirmed).  Every path returned by `perform()` — for any
strategy satisfying the well-behavedness its five instances are proved to
have (`bfs_stratOK`, `dfs_stratOK`, `ucs_stratOK`, `astar_stratOK`,
`iddfs_stratOK`) — starts at the initial state, ends in a state satisfying
the goal predicate, and steps only through the successors function; it is
produced by walking parent references from the goal node and reversing,
hence ordered initial → goal. -/
theorem C4_path_reconstruction :
    ∀ (σ π ε : Type) [Inhabited σ] [Inhabited π] (S : Strat σ π ε)
      (succs : σ → List σ) (goal : σ → Bool) (initial : σ),
      StratOK S succs initial →
      ∀ (fuel : Nat) (tr : List (SNode σ π)) (c' : Core σ π ε),
        run S succs goal initial fuel = some (some tr, c') →
        tr.head?.map (fun n => n.state) = some initial ∧
        (∃ n, tr.getLast? = some n ∧ goal n.state = true) ∧
        List.Chain' (fun a b => b.state ∈ succs a.state) tr := by
  intro σ π ε _ _ S succs goal initial hS fuel tr c' h
  exact loop_path S succs goal initial hS fuel (initCore S initial)
    (initCore_inv S succs initial) tr c' h

/-- Witness for C4: the path returned by a concrete successful BFS run
(`false → true`, goal `true`) has the three properties. -/
theorem C4_witness :
    ([(⟨false, none, ()⟩ : SNode Bool Unit), ⟨true, some 0, ()⟩].head?.map
        (fun n => n.state) = some false) ∧
    (∃ n, [(⟨false, none, ()⟩ : SNode Bool Unit), ⟨true, some 0, ()⟩].getLast? =
        some n ∧ (fun b : Bool => b) n.state = true) ∧
    List.Chain' (fun a b => b.state ∈ (fun b : Bool => if b then [] else [true]) a.state)
      [(⟨false, none, ()⟩ : SNode Bool Unit), ⟨true, some 0, ()⟩] :=
  C4_path_reconstruction Bool Unit Unit (bfsStrat Bool)
    (fun b : Bool => if b then [] else [true]) (fun b : Bool => b) false
    (bfs_stratOK _ _) 2
    [⟨false, none, ()⟩, ⟨true, some 0, ()⟩] ⟨[], [], [], (), [false]⟩ (by decide)

/-- **C9** (confirmed).  On the same weighted graph (same cost field,
successors function, goal predicate and initial state), UCS and A* with
the constant-zero heuristic return identical paths (the same sequence of
states) and identical total path costs (the cumulative cost stored in the
goal node), for every fuel bound — including both returning `None` or
still running at that bound. -/
theorem C9_ucs_astar_zero_identical :
    ∀ (σ : Type) [Inhabited σ] (cost : σ → Int) (succs : σ → List σ)
      (goal : σ → Bool) (initial : σ) (fuel : Nat),
      Option.map (fun rc => (Prod.fst rc).map (fun tr => tr.map (fun n => n.state)))
          (run (ucsStrat cost) succs goal initial fuel) =
        Option.map (fun rc => (Prod.fst rc).map (fun tr => tr.map (fun n => n.state)))
          (run (astarStrat cost (fun _ => 0)) succs goal initial fuel) ∧
      Option.map (fun rc => (Prod.fst rc).map (fun tr => tr.getLast?.map (fun n => n.payload)))
          (run (ucsStrat cost) succs goal initial fuel) =
        Option.map (fun rc => (Prod.fst rc).map (fun tr => tr.getLast?.map (fun n => n.payload.1)))
          (run (astarStrat cost (fun _ => 0)) succs goal initial fuel) := by
  intro σ _ cost succs goal initial fuel
  have hrun : run (ucsStrat cost) succs goal initial fuel =
      (run (astarStrat cost (fun _ => 0)) succs goal initial fuel).map
        (fun rc => (rc.1.map (List.map projNode), projCore rc.2)) := by
    unfold run
    rw [← initCore_proj cost initial]
    exact loop_proj cost succs goal fuel _ (initCore_totEq cost initial)
  rw [hrun]
  cases hA : run (astarStrat cost (fun _ => 0)) succs goal initial fuel with
  | none => exact ⟨rfl, rfl⟩
  | some rc =>
    rcases rc with ⟨r, c2⟩
    cases r with
    | none => exact ⟨rfl, rfl⟩
    | some tr =>
      constructor
      · show some (some ((tr.map projNode).map (fun n => n.state))) =
          some (some (tr.map (fun n => n.state)))
        rw [List.map_map]
        rfl
      · show some (some (((tr.map projNode).getLast?).map (fun n => n.payload))) =
          some (some ((tr.getLast?).map (fun n => n.payload.1)))
        rw [List.getLast?_map, Option.map_map]
        rfl
